import Mathlib

/-!
Verification of the tree-enumeration and tree-distance core of the
`summer-research` phylogenetics repository.

The external `phylonetwork.PhylogeneticNetwork` collaborator is modelled as a
directed graph on natural-number node identifiers with an optional string
label per node.  Operations that the repository's own code performs on such
networks (`predecessors`, `remove_edge`, the reticulation enumeration) are
translated directly; operations that belong to the external library
(`remove_elementary_nodes`, `remove_taxa`, parsing) are passed in as opaque
function parameters, mirroring the spec's black-box collaborator contract.
-/

/-- Model of the external `PhylogeneticNetwork`: a directed graph with
optional node labels.  `nodes` is the networkx node list (iteration order),
`edges` the directed edge list, `label` the labelling function. -/
structure PhyloNet where
  nodes : List Nat
  edges : List (Nat × Nat)
  label : Nat → Option String

namespace PhyloNet

/-- networkx `DiGraph.predecessors`: the sources of the edges into `v`. -/
def predecessors (net : PhyloNet) (v : Nat) : List Nat :=
  (net.edges.filter (fun e => e.2 == v)).map (fun e => e.1)

/-- networkx `DiGraph.remove_edge u v`. -/
def remove_edge (net : PhyloNet) (u v : Nat) : PhyloNet :=
  { net with edges := net.edges.filter (fun e => e != (u, v)) }

/-- `phylonetwork` leaves: nodes of out-degree 0. -/
def leaves (net : PhyloNet) : List Nat :=
  net.nodes.filter (fun v => (net.edges.filter (fun e => e.1 == v)).isEmpty)

/-- `phylonetwork` reticulations: nodes of in-degree at least 2, in node
iteration order. -/
def reticulations (net : PhyloNet) : List Nat :=
  net.nodes.filter (fun v => 2 ≤ (net.predecessors v).length)

/-- nodes carrying a label (`phylonetwork.labeled_nodes`). -/
def labeled_nodes (net : PhyloNet) : List Nat :=
  net.nodes.filter (fun v => (net.label v).isSome)

end PhyloNet

/-- Insertion sort step used to model Python's `list.sort()` on strings. -/
def insertSorted (x : String) : List String → List String
  | [] => [x]
  | y :: ys => if x ≤ y then x :: y :: ys else y :: insertSorted x ys

/-- Python `list.sort()` on strings (model: insertion sort by `≤`). -/
def sortStrings (l : List String) : List String :=
  l.foldr insertSorted []

/-- `Network.labelled_leaves`: labels of the labelled leaves of the network,
sorted (`network_processing.py` lines 94-114). -/
def labelled_leaves (net : PhyloNet) : List String :=
  sortStrings ((net.leaves).filterMap net.label)

/-- `Network.all_trees` (`network_processing.py` lines 202-230): starting
from the single current network, for each reticulation in the frozen order,
and for each parent of that reticulation in the (unmodified) current
network, remove that parent edge from a copy of every network of the
previous generation.  Deep copies are values in this embedding. -/
def all_trees (net : PhyloNet) (rets : List Nat) : List PhyloNet :=
  rets.foldl
    (fun prev_networks reticulation =>
      (net.predecessors reticulation).flatMap
        (fun parent =>
          prev_networks.map (fun prev_net => prev_net.remove_edge parent reticulation)))
    [net]

theorem length_flatMap_remove (r : Nat) (parents : List Nat)
    (prev : List PhyloNet) :
    (parents.flatMap (fun p => prev.map (fun pn => pn.remove_edge p r))).length
      = parents.length * prev.length := by
  induction parents with
  | nil => simp
  | cons p ps ih =>
      simp only [List.flatMap_cons, List.length_append, List.length_map, ih,
        List.length_cons]
      ring

theorem all_trees_foldl_length (net : PhyloNet) (rets : List Nat) :
    ∀ init : List PhyloNet,
      (rets.foldl
        (fun prev_networks reticulation =>
          (net.predecessors reticulation).flatMap
            (fun parent =>
              prev_networks.map (fun prev_net => prev_net.remove_edge parent reticulation)))
        init).length
      = init.length * (rets.map (fun r => (net.predecessors r).length)).prod := by
  induction rets with
  | nil => intro init; simp
  | cons r rs ih =>
      intro init
      simp only [List.foldl_cons, List.map_cons, List.prod_cons]
      rw [ih, length_flatMap_remove]
      ring

/-- The number of networks produced by `all_trees` is the product of the
in-degrees of the reticulations processed. -/
theorem all_trees_length (net : PhyloNet) (rets : List Nat) :
    (all_trees net rets).length
      = (rets.map (fun r => (net.predecessors r).length)).prod := by
  unfold all_trees
  rw [all_trees_foldl_length]
  simp

/-- C1: `Network.all_trees` returns a list whose length is the product, over
the network's reticulations, of that reticulation's in-degree; when every
reticulation has exactly 2 parents this equals `2 ^ R` with `R` the number
of reticulations. -/
theorem all_trees_count (net : PhyloNet) :
    (all_trees net net.reticulations).length
      = (net.reticulations.map (fun r => (net.predecessors r).length)).prod
    ∧ ((∀ r ∈ net.reticulations, (net.predecessors r).length = 2) →
        (all_trees net net.reticulations).length = 2 ^ net.reticulations.length) := by
  refine ⟨all_trees_length net net.reticulations, fun h => ?_⟩
  rw [all_trees_length]
  have hmap : net.reticulations.map (fun r => (net.predecessors r).length)
      = List.replicate (net.reticulations.map
          (fun r => (net.predecessors r).length)).length 2 := by
    apply List.eq_replicate_of_mem
    intro x hx
    rcases List.mem_map.mp hx with ⟨r, hr, hrx⟩
    rw [← hrx]
    exact h r hr
  rw [hmap, List.prod_replicate, List.length_map]

/-- Example network for witnesses: one reticulation node `2` with the two
parents `0` and `1`. -/
def exNet : PhyloNet :=
  { nodes := [0, 1, 2, 3]
    edges := [(0, 1), (0, 2), (1, 2), (2, 3)]
    label := fun v => if v = 3 then some "a" else none }

/-- Witness for C1 at a concrete network with one in-degree-2
reticulation. -/
theorem all_trees_count_witness :
    (∀ r ∈ exNet.reticulations, (exNet.predecessors r).length = 2)
    ∧ (all_trees exNet exNet.reticulations).length = 2 ^ exNet.reticulations.length :=
  ⟨by decide, (all_trees_count exNet).2 (by decide)⟩

/-- An entry of `EmbeddedTrees.trees_data`: the canonical newick key and the
Python value list `[count, tree, tree, ...]` modelled as the count (slot 0)
paired with the list of appended trees. -/
abbrev TreesData := List (String × Nat × List PhyloNet)

/-- The keys of `trees_data`, in insertion order. -/
def dataKeys (d : TreesData) : List String :=
  d.map (fun e => e.1)

/-- Sum of the occurrence counts stored in `trees_data`. -/
def sumCounts (d : TreesData) : Nat :=
  (d.map (fun e => e.2.1)).sum

/-- `self.trees_data[tree_newick][0] += 1` followed by the unconditional
`self.trees_data[tree_newick].append(tree)` of `generate`
(`network_processing.py` lines 382-389), acting on the entry whose key
matches. -/
def bumpEntry (k : String) (t : PhyloNet) : TreesData → TreesData
  | [] => []
  | (k', c, ts) :: rest =>
      if k' = k then (k', c + 1, ts ++ [t]) :: rest
      else (k', c, ts) :: bumpEntry k t rest

/-- One iteration of the loop body of `EmbeddedTrees.generate`: if the
canonical string is already a key, bump its count and append the tree;
otherwise insert a fresh `[1, tree]` entry (Python dicts preserve insertion
order). -/
def generateStep (d : TreesData) (key : String) (tree : PhyloNet) : TreesData :=
  if key ∈ dataKeys d then bumpEntry key tree d
  else d ++ [(key, 1, [tree])]

/-- `EmbeddedTrees.generate` (`network_processing.py` lines 364-392).  The
per-tree reduction pipeline (re-parse of the canonical string, elementary
node suppression, unselected-leaf and dummy-leaf removal, serialisation) is
carried out by external-library calls and is passed in as the opaque
`reduce`, returning the canonical newick key and the reduced tree. -/
def generate (reduce : PhyloNet → String × PhyloNet) (all : List PhyloNet) : TreesData :=
  all.foldl (fun d t => generateStep d (reduce t).1 (reduce t).2) []

theorem mem_dataKeys_of_sum {k : String} {d : TreesData} (h : k ∈ dataKeys d) :
    ∃ e ∈ d, e.1 = k := by
  rcases List.mem_map.mp h with ⟨e, he, hek⟩
  exact ⟨e, he, hek⟩

theorem sumCounts_bumpEntry (k : String) (t : PhyloNet) :
    ∀ d : TreesData, k ∈ dataKeys d →
      sumCounts (bumpEntry k t d) = sumCounts d + 1 := by
  intro d
  induction d with
  | nil => intro h; simp [dataKeys] at h
  | cons e rest ih =>
      intro h
      obtain ⟨k', c, ts⟩ := e
      by_cases hk : k' = k
      · subst hk
        simp [bumpEntry, sumCounts]
        ring
      · have hmem : k ∈ dataKeys rest := by
          simp [dataKeys, hk] at h
          simpa [dataKeys] using h.resolve_left (fun hkk => hk hkk.symm)
        simp [bumpEntry, hk, sumCounts] at *
        rw [ih hmem]
        ring

theorem length_bumpEntry (k : String) (t : PhyloNet) :
    ∀ d : TreesData, (bumpEntry k t d).length = d.length := by
  intro d
  induction d with
  | nil => rfl
  | cons e rest ih =>
      obtain ⟨k', c, ts⟩ := e
      by_cases hk : k' = k <;> simp [bumpEntry, hk, ih]

theorem dataKeys_bumpEntry (k : String) (t : PhyloNet) :
    ∀ d : TreesData, dataKeys (bumpEntry k t d) = dataKeys d := by
  intro d
  induction d with
  | nil => rfl
  | cons e rest ih =>
      obtain ⟨k', c, ts⟩ := e
      by_cases hk : k' = k <;> simp [bumpEntry, hk, dataKeys] at * <;> simpa using ih

theorem sumCounts_generateStep (d : TreesData) (k : String) (t : PhyloNet) :
    sumCounts (generateStep d k t) = sumCounts d + 1 := by
  unfold generateStep
  by_cases h : k ∈ dataKeys d
  · simp [h, sumCounts_bumpEntry k t d h]
  · simp [h, sumCounts]

theorem length_generateStep (d : TreesData) (k : String) (t : PhyloNet) :
    (generateStep d k t).length ≤ d.length + 1 := by
  unfold generateStep
  by_cases h : k ∈ dataKeys d
  · simp [h, length_bumpEntry]
  · simp [h]

theorem dataKeys_generateStep_nodup (d : TreesData) (k : String) (t : PhyloNet)
    (h : (dataKeys d).Nodup) : (dataKeys (generateStep d k t)).Nodup := by
  unfold generateStep
  by_cases hk : k ∈ dataKeys d
  · simpa [hk, dataKeys_bumpEntry] using h
  · simp only [hk, if_false]
    have : dataKeys (d ++ [(k, 1, [t])]) = dataKeys d ++ [k] := by
      simp [dataKeys]
    rw [this]
    simpa [List.nodup_append] using ⟨h, hk⟩

theorem generate_fold_sum (reduce : PhyloNet → String × PhyloNet) :
    ∀ (l : List PhyloNet) (d : TreesData),
      sumCounts (l.foldl (fun d t => generateStep d (reduce t).1 (reduce t).2) d)
        = sumCounts d + l.length := by
  intro l
  induction l with
  | nil => intro d; simp
  | cons t ts ih =>
      intro d
      simp only [List.foldl_cons, List.length_cons]
      rw [ih, sumCounts_generateStep]
      ring

theorem generate_fold_length (reduce : PhyloNet → String × PhyloNet) :
    ∀ (l : List PhyloNet) (d : TreesData),
      (l.foldl (fun d t => generateStep d (reduce t).1 (reduce t).2) d).length
        ≤ d.length + l.length := by
  intro l
  induction l with
  | nil => intro d; simp
  | cons t ts ih =>
      intro d
      simp only [List.foldl_cons, List.length_cons]
      calc (ts.foldl (fun d t => generateStep d (reduce t).1 (reduce t).2)
              (generateStep d (reduce t).1 (reduce t).2)).length
          ≤ (generateStep d (reduce t).1 (reduce t).2).length + ts.length := ih _
        _ ≤ (d.length + 1) + ts.length :=
            Nat.add_le_add_right (length_generateStep d _ _) _
        _ = d.length + (ts.length + 1) := by ring

theorem generate_fold_nodup (reduce : PhyloNet → String × PhyloNet) :
    ∀ (l : List PhyloNet) (d : TreesData), (dataKeys d).Nodup →
      (dataKeys (l.foldl (fun d t => generateStep d (reduce t).1 (reduce t).2) d)).Nodup := by
  intro l
  induction l with
  | nil => intro d h; simpa using h
  | cons t ts ih =>
      intro d h
      simp only [List.foldl_cons]
      exact ih _ (dataKeys_generateStep_nodup d _ _ h)

/-- Shared helper: when every reticulation has in-degree 2 the enumeration
yields `2 ^ R` trees. -/
theorem all_trees_length_pow (net : PhyloNet)
    (h : ∀ r ∈ net.reticulations, (net.predecessors r).length = 2) :
    (all_trees net net.reticulations).length = 2 ^ net.reticulations.length := by
  rw [all_trees_length]
  have hmap : net.reticulations.map (fun r => (net.predecessors r).length)
      = List.replicate (net.reticulations.map
          (fun r => (net.predecessors r).length)).length 2 := by
    apply List.eq_replicate_of_mem
    intro x hx
    rcases List.mem_map.mp hx with ⟨r, hr, hrx⟩
    rw [← hrx]
    exact h r hr
  rw [hmap, List.prod_replicate, List.length_map]

/-- C2: after `EmbeddedTrees.generate`, the sum of the occurrence counts in
`trees_data` equals the number of unsuppressed trees produced by the
enumeration, the keys are distinct, their number is at most that total, and
in the two-parents-per-reticulation case the total is `2 ^ R`.  This holds
for every reduction pipeline, hence for every leaf selection. -/
theorem generate_counts (net : PhyloNet) (reduce : PhyloNet → String × PhyloNet) :
    sumCounts (generate reduce (all_trees net net.reticulations))
      = (all_trees net net.reticulations).length
    ∧ (dataKeys (generate reduce (all_trees net net.reticulations))).Nodup
    ∧ (generate reduce (all_trees net net.reticulations)).length
        ≤ (all_trees net net.reticulations).length
    ∧ ((∀ r ∈ net.reticulations, (net.predecessors r).length = 2) →
        sumCounts (generate reduce (all_trees net net.reticulations))
          = 2 ^ net.reticulations.length) := by
  refine ⟨?_, ?_, ?_, ?_⟩
  · unfold generate
    rw [generate_fold_sum]
    simp [sumCounts]
  · exact generate_fold_nodup reduce _ [] (by simp [dataKeys])
  · unfold generate
    simpa using generate_fold_length reduce (all_trees net net.reticulations) []
  · intro h
    unfold generate
    rw [generate_fold_sum]
    simp [sumCounts, all_trees_length_pow net h]

/-- Witness for C2 at the concrete example network, with a constant
reduction pipeline. -/
theorem generate_counts_witness :
    sumCounts (generate (fun t => ("x", t)) (all_trees exNet exNet.reticulations))
      = 2 ^ exNet.reticulations.length :=
  (generate_counts exNet (fun t => ("x", t))).2.2.2 (by decide)

/-- C7 counterexample: when two unsuppressed trees reduce to the same
canonical string, the loop of `generate` appends the reduced tree to the
value list on EVERY occurrence, so the value holds two networks, not a
single representative. -/
theorem generate_single_representative_cex :
    ¬ (∀ e ∈ generate (fun t => ("x", t)) [exNet, exNet], e.2.2.length = 1) := by
  decide

theorem bumpEntry_entry_shape (k : String) (t : PhyloNet) :
    ∀ d : TreesData, (∀ e ∈ d, e.2.2.length = e.2.1 ∧ 1 ≤ e.2.1) →
      ∀ e ∈ bumpEntry k t d, e.2.2.length = e.2.1 ∧ 1 ≤ e.2.1 := by
  intro d
  induction d with
  | nil => intro _ e he; simp [bumpEntry] at he
  | cons hd rest ih =>
      obtain ⟨k', c, ts⟩ := hd
      intro h e he
      by_cases hk : k' = k
      · simp only [bumpEntry, hk, if_pos rfl] at he
        rcases List.mem_cons.mp he with he | he
        · subst he
          have h0 := h (k', c, ts) (List.mem_cons_self _ _)
          exact ⟨by simpa using h0.1, Nat.succ_le_succ (Nat.zero_le c)⟩
        · exact h e (List.mem_cons_of_mem _ he)
      · simp only [bumpEntry, if_neg hk] at he
        rcases List.mem_cons.mp he with he | he
        · subst he
          exact h (k', c, ts) (List.mem_cons_self _ _)
        · exact ih (fun e he => h e (List.mem_cons_of_mem _ he)) e he

theorem generateStep_entry_shape (d : TreesData) (k : String) (t : PhyloNet)
    (h : ∀ e ∈ d, e.2.2.length = e.2.1 ∧ 1 ≤ e.2.1) :
    ∀ e ∈ generateStep d k t, e.2.2.length = e.2.1 ∧ 1 ≤ e.2.1 := by
  unfold generateStep
  by_cases hk : k ∈ dataKeys d
  · simp only [hk, if_true]
    exact bumpEntry_entry_shape k t d h
  · simp only [hk, if_false]
    intro e he
    rcases List.mem_append.mp he with he | he
    · exact h e he
    · simp at he
      subst he
      simp

theorem generate_fold_entry_shape (reduce : PhyloNet → String × PhyloNet) :
    ∀ (l : List PhyloNet) (d : TreesData),
      (∀ e ∈ d, e.2.2.length = e.2.1 ∧ 1 ≤ e.2.1) →
      ∀ e ∈ l.foldl (fun d t => generateStep d (reduce t).1 (reduce t).2) d,
        e.2.2.length = e.2.1 ∧ 1 ≤ e.2.1 := by
  intro l
  induction l with
  | nil => intro d h; simpa using h
  | cons t ts ih =>
      intro d h
      simp only [List.foldl_cons]
      exact ih _ (generateStep_entry_shape d _ _ h)

/-- C7 amended: during deduplication a repeated canonical string has its
count incremented AND its reduced tree appended, so every value of
`trees_data` consists of the count together with one reduced tree per
occurrence (the list of trees has length equal to the count, and the count
is at least 1); the representative used downstream is the first of them. -/
theorem generate_entry_shape (reduce : PhyloNet → String × PhyloNet)
    (all : List PhyloNet) :
    ∀ e ∈ generate reduce all, e.2.2.length = e.2.1 ∧ 1 ≤ e.2.1 := by
  unfold generate
  exact generate_fold_entry_shape reduce all [] (by simp)

/-- Witness for C7's amended theorem at a concrete duplicated reduction. -/
theorem generate_entry_shape_witness :
    ("x", 2, [exNet, exNet]) ∈ generate (fun t => ("x", t)) [exNet, exNet]
    ∧ ([exNet, exNet].length = 2 ∧ 1 ≤ 2) := by
  have hmem : ("x", 2, [exNet, exNet]) ∈ generate (fun t => ("x", t)) [exNet, exNet] := by
    have hgen : generate (fun t => ("x", t)) [exNet, exNet]
        = [("x", 2, [exNet, exNet])] := rfl
    rw [hgen]
    exact List.mem_singleton.mpr rfl
  exact ⟨hmem, generate_entry_shape (fun t => ("x", t)) [exNet, exNet]
    ("x", 2, [exNet, exNet]) hmem⟩

/-- The two error classes raised during `Network` construction:
`MalformedNewickException` propagated from the parsing collaborator, and the
repository's own `InvalidLeaves` (`network_processing.py` lines 268-273). -/
inductive NetError
  | malformedNewick
  | invalidLeaves
deriving DecidableEq

/-- The argument of `Network.set_current_selected_leaves`: either the
user's comma-separated free-text string or a non-string value (the
labelled-leaves list passed during construction). -/
inductive LeafSelection
  | fromString (s : String)
  | fromList (l : List String)

/-- `Network.set_current_selected_leaves` (`network_processing.py` lines
161-188): split/strip/sort a string input, or tuple a non-string input;
keep only leaves present in `labelled_leaves`; raise `InvalidLeaves` when
nothing survives, else store the sorted valid subset. -/
def set_current_selected_leaves (labelled : List String) (input : LeafSelection) :
    Except NetError (List String) :=
  let selected : List String :=
    match input with
    | .fromString s => sortStrings ((s.splitOn ",").map (fun x => x.trim))
    | .fromList l => l
  let valid := selected.filter (fun leaf => decide (leaf ∈ labelled))
  if valid.isEmpty then .error .invalidLeaves
  else .ok (sortStrings valid)

/-- The mutable state of a `Network` object: the two parsed networks, the
frozen reticulation order, the current selection, and the per-selection
cache `trees_dict`. -/
structure NetworkState where
  original : PhyloNet
  current : PhyloNet
  newick : String
  current_reticulations : List Nat
  current_selected_leaves : List String
  trees_dict : List (List String × TreesData)

/-- `Network.retain_labelled_leaves` (`network_processing.py` lines
253-265): collect labels of labelled nodes of the ORIGINAL network that are
not network-leaf labels, and strip them from the CURRENT network via the
external `remove_taxa` (passed as a parameter). -/
def retain_labelled_leaves (removeTaxa : PhyloNet → List String → PhyloNet)
    (s : NetworkState) : NetworkState :=
  let labelled := labelled_leaves s.original
  let labels_to_remove := s.original.labeled_nodes.filterMap
    (fun node =>
      match s.original.label node with
      | some l => if l ∈ labelled then none else some l
      | none => none)
  { s with current := removeTaxa s.current labels_to_remove }

/-- `Network.__init__` (`network_processing.py` lines 38-66): parse the
newick twice (original and current), suppress elementary nodes on the
current copy, select all labelled leaves, strip non-leaf labels, and freeze
the reticulation order.  Parsing and the two external mutators are
collaborator parameters; a parse failure is the propagated
`MalformedNewickException`. -/
def network_init (parse : String → Option PhyloNet)
    (removeElementary : PhyloNet → PhyloNet)
    (removeTaxa : PhyloNet → List String → PhyloNet)
    (newick : String) : Except NetError NetworkState :=
  match parse newick with
  | none => .error .malformedNewick
  | some orig =>
      let current := removeElementary orig
      match set_current_selected_leaves (labelled_leaves orig)
          (.fromList (labelled_leaves orig)) with
      | .error e => .error e
      | .ok sel =>
          let s : NetworkState :=
            { original := orig, current := current, newick := newick,
              current_reticulations := [], current_selected_leaves := sel,
              trees_dict := [] }
          let s := retain_labelled_leaves removeTaxa s
          .ok { s with current_reticulations := s.current.reticulations }

/-- `Network.set_current_selected_leaves` as a state transition. -/
def NetworkState.setCurrentSelectedLeaves (s : NetworkState) (input : LeafSelection) :
    Except NetError NetworkState :=
  match set_current_selected_leaves (labelled_leaves s.original) input with
  | .error e => .error e
  | .ok sel => .ok { s with current_selected_leaves := sel }

/-- `Network.all_trees` as a state operation: the enumeration only reads the
current network and the frozen reticulation order (all edge removals happen
on deep copies, which are plain values here). -/
def NetworkState.allTrees (s : NetworkState) : NetworkState × List PhyloNet :=
  (s, all_trees s.current s.current_reticulations)

/-- `Network.process` (`network_processing.py` lines 233-250): return the
cached `EmbeddedTrees` for the current selection if present, else generate
and cache it. -/
def NetworkState.process (s : NetworkState) (reduce : PhyloNet → String × PhyloNet) :
    NetworkState × TreesData :=
  match s.trees_dict.lookup s.current_selected_leaves with
  | some td => (s, td)
  | none =>
      let td := generate reduce s.allTrees.2
      ({ s with trees_dict := s.trees_dict ++ [(s.current_selected_leaves, td)] }, td)

/-- C6 amended: a parse failure propagates `MalformedNewickException`, but a
network that parses with zero labelled leaves makes construction fail with
the DIFFERENT error class `InvalidLeaves`, raised by
`set_current_selected_leaves`. -/
theorem network_init_error_classes (parse : String → Option PhyloNet)
    (removeElementary : PhyloNet → PhyloNet)
    (removeTaxa : PhyloNet → List String → PhyloNet) (newick : String) :
    (parse newick = none →
      network_init parse removeElementary removeTaxa newick = .error .malformedNewick)
    ∧ (∀ net, parse newick = some net → labelled_leaves net = [] →
        network_init parse removeElementary removeTaxa newick = .error .invalidLeaves) := by
  constructor
  · intro h
    unfold network_init
    rw [h]
  · intro net hp hl
    unfold network_init
    rw [hp]
    simp [set_current_selected_leaves, hl]

/-- A parsed network with a single unlabelled node: zero labelled leaves. -/
def noLeafNet : PhyloNet :=
  { nodes := [0], edges := [], label := fun _ => none }

/-- C6 counterexample: constructing a `Network` from a string that parses to
a network with zero labelled leaves fails with `InvalidLeaves`, which is a
different error class from the parse failure `MalformedNewickException`. -/
theorem network_init_zero_leaves_cex :
    network_init (fun _ => some noLeafNet) id (fun n _ => n) "(,);"
      = .error .invalidLeaves
    ∧ (Except.error NetError.invalidLeaves : Except NetError NetworkState)
        ≠ .error .malformedNewick := by
  constructor
  · rfl
  · intro h
    exact NetError.noConfusion (Except.error.inj h)

/-- Witness for C6's amended theorem, at a parser that always fails and at a
parser producing the concrete zero-leaf network. -/
theorem network_init_error_classes_witness :
    network_init (fun _ => none) id (fun n _ => n) "x" = .error .malformedNewick
    ∧ network_init (fun _ => some noLeafNet) id (fun n _ => n) "x"
        = .error .invalidLeaves :=
  ⟨(network_init_error_classes (fun _ => none) id (fun n _ => n) "x").1 rfl,
   (network_init_error_classes (fun _ => some noLeafNet) id (fun n _ => n) "x").2
     noLeafNet rfl rfl⟩

/-- C8: the original network held by a `Network` is never mutated after
construction: every state operation (`set_current_selected_leaves`,
`all_trees`, `process`, `retain_labelled_leaves`) preserves the `original`
field, for every choice of external collaborator functions; edge removals
of the enumeration act on copies (values) and `remove_taxa` is applied only
to the current network. -/
theorem original_never_mutated :
    (∀ (s : NetworkState) (input : LeafSelection) (s' : NetworkState),
        s.setCurrentSelectedLeaves input = .ok s' → s'.original = s.original)
    ∧ (∀ (removeTaxa : PhyloNet → List String → PhyloNet) (s : NetworkState),
        (retain_labelled_leaves removeTaxa s).original = s.original)
    ∧ (∀ s : NetworkState, s.allTrees.1.original = s.original)
    ∧ (∀ (reduce : PhyloNet → String × PhyloNet) (s : NetworkState),
        (s.process reduce).1.original = s.original) := by
  refine ⟨?_, ?_, ?_, ?_⟩
  · intro s input s' h
    unfold NetworkState.setCurrentSelectedLeaves at h
    cases hm : set_current_selected_leaves (labelled_leaves s.original) input with
    | error e => rw [hm] at h; cases h
    | ok sel => rw [hm] at h; cases h; rfl
  · intro removeTaxa s; rfl
  · intro s; rfl
  · intro reduce s
    unfold NetworkState.process
    cases s.trees_dict.lookup s.current_selected_leaves <;> rfl

/-- Example state for the C8 witness. -/
def exState : NetworkState :=
  { original := exNet, current := exNet, newick := "",
    current_reticulations := exNet.reticulations,
    current_selected_leaves := ["a"], trees_dict := [] }

/-- Witness for C8 at a concrete state and a concrete successful
selection. -/
theorem original_never_mutated_witness :
    ({ exState with current_selected_leaves := ["a"] } : NetworkState).original
      = exState.original :=
  original_never_mutated.1 exState (.fromList ["a"]) _ rfl

/-- What the pairwise engine (`drspr.py`) observes about one input tree
string: whether `Tree(trees[i] + ";")` parses (else
`MalformedNewickException`), the set of labelled leaf names
(`Tree.labelled_leaves`), and the `has_unlabelled_leaf()` flag. -/
structure TreeInfo where
  parses : Bool
  labelledLeaves : Finset String
  hasUnlabelledLeaf : Bool

/-- A cell of the clusters matrix of `rspr_pairwise`: the initial `"-"`
placeholder, a cluster list from the black-box `rspr` executable, or one of
the three per-pair error messages.  The taxon-mismatch message carries the
leaf set it names (Python joins the set in unspecified order, so the
message is modelled by its content). -/
inductive ClusterCell
  | placeholder
  | clusters (cs : List String)
  | errMalformed
  | errUnlabelled
  | errTaxa (missing : Finset String)
deriving DecidableEq

/-- The per-pair body of the loop of `rspr_pairwise` (`drspr.py` lines
112-139): parse failure of either tree gives the malformed sentinel; an
unlabelled leaf in either tree gives the unlabelled sentinel; equal
labelled-leaf sets invoke the black-box `rspr` executable (`rsprFn`);
otherwise the sentinel `"X"` with the union of the two set differences. -/
def pairCell (rsprFn : Nat → Nat → String × List String) (info : Nat → TreeInfo)
    (i j : Nat) : String × ClusterCell :=
  if !(info i).parses || !(info j).parses then ("X", ClusterCell.errMalformed)
  else if (info i).hasUnlabelledLeaf || (info j).hasUnlabelledLeaf then
    ("X", ClusterCell.errUnlabelled)
  else if (info i).labelledLeaves = (info j).labelledLeaves then
    ((rsprFn i j).1, ClusterCell.clusters (rsprFn i j).2)
  else
    ("X", ClusterCell.errTaxa
      (((info i).labelledLeaves \ (info j).labelledLeaves)
        ∪ ((info j).labelledLeaves \ (info i).labelledLeaves)))

/-- Read entry `(i, j)` of a list-of-rows matrix (`m[i][j]`). -/
def matGet (m : List (List α)) (dflt : α) (i j : Nat) : α :=
  (m.getD i []).getD j dflt

/-- Write entry `(i, j)` of a list-of-rows matrix (`m[i][j] = v`). -/
def matSet (m : List (List α)) (i j : Nat) (v : α) : List (List α) :=
  m.set i ((m.getD i []).set j v)

/-- `rspr_pairwise` (`drspr.py` lines 74-142): both matrices start as
`length × length` grids of placeholders, then the double loop
`for i in range(len(trees)): for j in range(i, len(trees))` writes the
per-pair result into cell `(i, j)` of each. -/
def rspr_pairwise (cell : Nat → Nat → String × ClusterCell) (n : Nat) :
    List (List String) × List (List ClusterCell) :=
  (List.range n).foldl
    (fun mats i =>
      (List.range' i (n - i)).foldl
        (fun mats j =>
          (matSet mats.1 i j (cell i j).1, matSet mats.2 i j (cell i j).2))
        mats)
    (List.replicate n (List.replicate n "-"),
     List.replicate n (List.replicate n ClusterCell.placeholder))

theorem getD_set (l : List α) (i a : Nat) (x d : α) :
    (l.set i x).getD a d = if a = i ∧ i < l.length then x else l.getD a d := by
  induction l generalizing i a with
  | nil => simp
  | cons hd tl ih =>
      cases i with
      | zero =>
          cases a with
          | zero => simp
          | succ a => simp
      | succ i =>
          cases a with
          | zero => simp
          | succ a =>
              simp only [List.set_cons_succ, List.getD_cons_succ, ih]
              refine if_congr ?_ rfl rfl
              simp only [List.length_cons]
              omega

theorem length_matSet (m : List (List α)) (i j : Nat) (v : α) :
    (matSet m i j v).length = m.length := by
  simp [matSet]

theorem shape_matSet (m : List (List α)) (i j : Nat) (v : α) (n : Nat)
    (hi : i < m.length) (h : ∀ r ∈ m, r.length = n) :
    ∀ r ∈ matSet m i j v, r.length = n := by
  intro r hr
  rcases List.mem_or_eq_of_mem_set hr with hr | hr
  · exact h r hr
  · subst hr
    rw [List.length_set, List.getD_eq_getElem _ _ hi]
    exact h _ (List.getElem_mem hi)

theorem matGet_matSet (m : List (List α)) (i j a b : Nat) (v d : α)
    (hi : i < m.length) (hj : j < (m.getD i []).length) :
    matGet (matSet m i j v) d a b
      = if a = i ∧ b = j then v else matGet m d a b := by
  unfold matGet matSet
  rw [getD_set]
  by_cases ha : a = i
  · subst ha
    rw [if_pos ⟨rfl, hi⟩, getD_set]
    by_cases hb : b = j
    · subst hb
      rw [if_pos ⟨rfl, hj⟩, if_pos ⟨rfl, rfl⟩]
    · rw [if_neg (fun h => hb h.1), if_neg (fun h => hb h.2)]
  · rw [if_neg (fun h => ha h.1), if_neg (fun h => ha h.1)]

theorem foldl_pair {β γ ι : Type} (g : β → ι → β) (h : γ → ι → γ)
    (l : List ι) (p : β × γ) :
    l.foldl (fun p x => (g p.1 x, h p.2 x)) p = (l.foldl g p.1, l.foldl h p.2) := by
  induction l generalizing p with
  | nil => rfl
  | cons x xs ih => simp only [List.foldl_cons, ih]

/-- Single-matrix version of the double loop of `rspr_pairwise`. -/
def pairwiseFill (f : Nat → Nat → α) (d : α) (n : Nat) : List (List α) :=
  (List.range n).foldl
    (fun m i => (List.range' i (n - i)).foldl (fun m j => matSet m i j (f i j)) m)
    (List.replicate n (List.replicate n d))

theorem rspr_pairwise_eq_fill (cell : Nat → Nat → String × ClusterCell) (n : Nat) :
    rspr_pairwise cell n
      = (pairwiseFill (fun i j => (cell i j).1) "-" n,
         pairwiseFill (fun i j => (cell i j).2) ClusterCell.placeholder n) := by
  unfold rspr_pairwise pairwiseFill
  have hstep : (fun (mats : List (List String) × List (List ClusterCell)) (i : Nat) =>
      (List.range' i (n - i)).foldl
        (fun mats j =>
          (matSet mats.1 i j (cell i j).1, matSet mats.2 i j (cell i j).2)) mats)
    = fun mats i =>
      ((List.range' i (n - i)).foldl (fun m j => matSet m i j (cell i j).1) mats.1,
       (List.range' i (n - i)).foldl (fun m j => matSet m i j (cell i j).2) mats.2) := by
    funext mats i
    exact foldl_pair (fun m j => matSet m i j (cell i j).1)
      (fun m j => matSet m i j (cell i j).2) (List.range' i (n - i)) mats
  rw [hstep]
  exact foldl_pair
    (fun m i => (List.range' i (n - i)).foldl (fun m j => matSet m i j (cell i j).1) m)
    (fun m i => (List.range' i (n - i)).foldl (fun m j => matSet m i j (cell i j).2) m)
    (List.range n)
    (List.replicate n (List.replicate n "-"),
     List.replicate n (List.replicate n ClusterCell.placeholder))

theorem fold_matSet_shape (f : Nat → Nat → α) (i n : Nat) :
    ∀ (cs : List Nat) (m : List (List α)), m.length = n → i < n →
      (∀ r ∈ m, r.length = n) →
      (cs.foldl (fun m j => matSet m i j (f i j)) m).length = n
      ∧ ∀ r ∈ cs.foldl (fun m j => matSet m i j (f i j)) m, r.length = n := by
  intro cs
  induction cs with
  | nil => intro m hm hi hr; exact ⟨hm, hr⟩
  | cons c cs ih =>
      intro m hm hi hr
      simp only [List.foldl_cons]
      exact ih _ (by rw [length_matSet]; exact hm) hi
        (shape_matSet m i c _ n (by rw [hm]; exact hi) hr)

theorem fillRow_get (f : Nat → Nat → α) (d : α) (n i : Nat) :
    ∀ (cs : List Nat) (m : List (List α)),
      m.length = n → (∀ r ∈ m, r.length = n) → i < n → (∀ c ∈ cs, c < n) →
      ∀ a b,
        matGet (cs.foldl (fun m j => matSet m i j (f i j)) m) d a b
          = if a = i ∧ b ∈ cs then f i b else matGet m d a b := by
  intro cs
  induction cs with
  | nil => intro m hm hr hi hc a b; simp
  | cons c cs ih =>
      intro m hm hr hi hc a b
      simp only [List.foldl_cons]
      rw [ih (matSet m i c (f i c)) (by rw [length_matSet]; exact hm)
        (shape_matSet m i c _ n (by rw [hm]; exact hi) hr) hi
        (fun x hx => hc x (List.mem_cons_of_mem _ hx))]
      have hj : c < (m.getD i []).length := by
        rw [List.getD_eq_getElem _ _ (by rw [hm]; exact hi)]
        rw [hr _ (List.getElem_mem (by rw [hm]; exact hi))]
        exact hc c (List.mem_cons_self _ _)
      rw [matGet_matSet m i c a b _ d (by rw [hm]; exact hi) hj]
      by_cases h1 : a = i <;> by_cases h2 : b ∈ cs <;> by_cases h3 : b = c <;>
        simp [h1, h2, h3]

theorem pairwiseFill_fold_get (f : Nat → Nat → α) (d : α) (n : Nat) :
    ∀ (rs : List Nat) (m : List (List α)),
      m.length = n → (∀ r ∈ m, r.length = n) → (∀ i ∈ rs, i < n) →
      ∀ a b, b < n →
        matGet (rs.foldl
            (fun m i => (List.range' i (n - i)).foldl
              (fun m j => matSet m i j (f i j)) m) m) d a b
          = if a ∈ rs ∧ a ≤ b then f a b else matGet m d a b := by
  intro rs
  induction rs with
  | nil => intro m hm hr hrs a b hb; simp
  | cons r rs ih =>
      intro m hm hr hrs a b hb
      have hrn : r < n := hrs r (List.mem_cons_self _ _)
      have hshape := fold_matSet_shape f r n (List.range' r (n - r)) m hm hrn hr
      simp only [List.foldl_cons]
      rw [ih _ hshape.1 hshape.2 (fun i hi => hrs i (List.mem_cons_of_mem _ hi)) a b hb]
      rw [fillRow_get f d n r (List.range' r (n - r)) m hm hr hrn
        (fun c hc => by
          have := List.mem_range'_1.mp hc
          omega) a b]
      have hmem : b ∈ List.range' r (n - r) ↔ r ≤ b := by
        rw [List.mem_range'_1]
        omega
      by_cases h1 : a ∈ rs ∧ a ≤ b
      · rw [if_pos h1, if_pos ⟨List.mem_cons_of_mem _ h1.1, h1.2⟩]
      · rw [if_neg h1]
        by_cases h2 : a = r
        · subst h2
          by_cases h3 : a ≤ b
          · rw [if_pos ⟨rfl, hmem.mpr h3⟩, if_pos ⟨List.mem_cons_self _ _, h3⟩]
          · rw [if_neg (fun h => h3 (hmem.mp h.2)), if_neg (fun h => h3 h.2)]
        · rw [if_neg (fun h => h2 h.1)]
          rw [if_neg (fun h => by
            rcases List.mem_cons.mp h.1 with hc | hc
            · exact h2 hc
            · exact h1 ⟨hc, h.2⟩)]

/-- Shared helper: the matrices built by `rspr_pairwise` hold the per-pair
result at every cell `(i, j)` with `i ≤ j` (diagonal included) and the
placeholder everywhere strictly below the diagonal. -/
theorem rspr_pairwise_get (cell : Nat → Nat → String × ClusterCell) (n a b : Nat)
    (ha : a < n) (hb : b < n) :
    matGet (rspr_pairwise cell n).1 "-" a b
      = (if a ≤ b then (cell a b).1 else "-")
    ∧ matGet (rspr_pairwise cell n).2 ClusterCell.placeholder a b
      = (if a ≤ b then (cell a b).2 else ClusterCell.placeholder) := by
  have hinit : ∀ {α' : Type} (d : α') (a b : Nat),
      matGet (List.replicate n (List.replicate n d)) d a b = d := by
    intro α' d a b
    unfold matGet
    rcases Nat.lt_or_ge a n with h | h
    · have hrow : (List.replicate n (List.replicate n d)).getD a [] = List.replicate n d := by
        rw [List.getD_eq_getElem _ _ (by simpa using h), List.getElem_replicate]
      rw [hrow]
      rcases Nat.lt_or_ge b n with h' | h'
      · rw [List.getD_eq_getElem _ _ (by simpa using h'), List.getElem_replicate]
      · rw [List.getD_eq_default _ _ (by simpa using h')]
    · have hrow : (List.replicate n (List.replicate n d)).getD a [] = [] := by
        rw [List.getD_eq_default _ _ (by simpa using h)]
      rw [hrow]
      simp
  rw [rspr_pairwise_eq_fill]
  constructor
  · unfold pairwiseFill
    rw [pairwiseFill_fold_get _ _ n (List.range n) _ (by simp)
      (fun r hr => by rw [List.eq_of_mem_replicate hr]; simp)
      (fun i hi => List.mem_range.mp hi) a b hb]
    rw [hinit]
    simp [List.mem_range, ha]
  · unfold pairwiseFill
    rw [pairwiseFill_fold_get _ _ n (List.range n) _ (by simp)
      (fun r hr => by rw [List.eq_of_mem_replicate hr]; simp)
      (fun i hi => List.mem_range.mp hi) a b hb]
    rw [hinit]
    simp [List.mem_range, ha]

/-- C3 amended: for N input trees the matrices returned by `rspr_pairwise`
populate every cell `(i, j)` with `i ≤ j` — the diagonal included, since the
inner loop is `for j in range(i, len(trees))` — with the per-pair result,
and hold the placeholder `"-"` exactly in the strictly-lower-triangular
cells `i > j`. -/
theorem rspr_pairwise_upper_triangular (cell : Nat → Nat → String × ClusterCell)
    (n i j : Nat) (hi : i < n) (hj : j < n) :
    matGet (rspr_pairwise cell n).1 "-" i j
      = (if i ≤ j then (cell i j).1 else "-")
    ∧ matGet (rspr_pairwise cell n).2 ClusterCell.placeholder i j
      = (if i ≤ j then (cell i j).2 else ClusterCell.placeholder) :=
  rspr_pairwise_get cell n i j hi hj

/-- Tree information for counterexample and witnesses: three well-formed
trees with a common leaf. -/
def cexInfo : Nat → TreeInfo := fun _ =>
  { parses := true, labelledLeaves := {"1"}, hasUnlabelledLeaf := false }

/-- A black-box `rspr` stub returning distance "0" with one cluster. -/
def cexRspr : Nat → Nat → String × List String := fun _ _ => ("0", ["c"])

/-- C3 counterexample: for 3 parseable trees with identical leaf sets the
diagonal cell `(0, 0)` of the distance matrix holds the distance returned
by the external tool, not the placeholder `"-"`, because the inner loop
starts at `j = i`. -/
theorem rspr_pairwise_diag_cex :
    matGet (rspr_pairwise (pairCell cexRspr cexInfo) 3).1 "-" 0 0 = "0"
    ∧ ("0" : String) ≠ "-" := by
  constructor
  · rfl
  · decide

/-- Witness for C3's amended theorem: a strictly-lower cell is `"-"` and an
upper cell carries the per-pair value, at concrete indices. -/
theorem rspr_pairwise_upper_triangular_witness :
    matGet (rspr_pairwise (pairCell cexRspr cexInfo) 3).1 "-" 1 0 = "-"
    ∧ matGet (rspr_pairwise (pairCell cexRspr cexInfo) 3).1 "-" 0 1
        = (pairCell cexRspr cexInfo 0 1).1 := by
  constructor
  · have h := (rspr_pairwise_upper_triangular (pairCell cexRspr cexInfo) 3 1 0
      (by decide) (by decide)).1
    simpa using h
  · have h := (rspr_pairwise_upper_triangular (pairCell cexRspr cexInfo) 3 0 1
      (by decide) (by decide)).1
    simpa using h

/-- C5: in the pairwise engine, a pair of trees that both parse, have no
unlabelled leaf, and have different labelled-leaf sets gets the sentinel
`"X"` in the distance matrix and a taxon-mismatch error naming exactly the
symmetric difference of the two leaf sets in the clusters matrix; and every
other upper cell of the batch still holds its own independently computed
per-pair result. -/
theorem rspr_pairwise_taxon_mismatch
    (rsprFn : Nat → Nat → String × List String) (info : Nat → TreeInfo)
    (n i j : Nat) (hi : i < n) (hj : j < n) (hij : i ≤ j)
    (hp1 : (info i).parses = true) (hp2 : (info j).parses = true)
    (hu1 : (info i).hasUnlabelledLeaf = false)
    (hu2 : (info j).hasUnlabelledLeaf = false)
    (hne : (info i).labelledLeaves ≠ (info j).labelledLeaves) :
    matGet (rspr_pairwise (pairCell rsprFn info) n).1 "-" i j = "X"
    ∧ matGet (rspr_pairwise (pairCell rsprFn info) n).2 ClusterCell.placeholder i j
        = ClusterCell.errTaxa
            (((info i).labelledLeaves \ (info j).labelledLeaves)
              ∪ ((info j).labelledLeaves \ (info i).labelledLeaves))
    ∧ (∀ a b, a < n → b < n → a ≤ b →
        matGet (rspr_pairwise (pairCell rsprFn info) n).1 "-" a b
          = (pairCell rsprFn info a b).1) := by
  have hcell : pairCell rsprFn info i j
      = ("X", ClusterCell.errTaxa
          (((info i).labelledLeaves \ (info j).labelledLeaves)
            ∪ ((info j).labelledLeaves \ (info i).labelledLeaves))) := by
    unfold pairCell
    rw [hp1, hp2, hu1, hu2]
    simp [hne]
  refine ⟨?_, ?_, ?_⟩
  · rw [(rspr_pairwise_get (pairCell rsprFn info) n i j hi hj).1, if_pos hij, hcell]
  · rw [(rspr_pairwise_get (pairCell rsprFn info) n i j hi hj).2, if_pos hij, hcell]
  · intro a b ha hb hab
    rw [(rspr_pairwise_get (pairCell rsprFn info) n a b ha hb).1, if_pos hab]

/-- Tree information with a taxon mismatch between trees 0 and 1: tree 0
has leaves `{1, 5}`, the others `{1}`; symmetric difference `{5}`. -/
def mmInfo : Nat → TreeInfo := fun i =>
  if i = 0 then { parses := true, labelledLeaves := {"1", "5"}, hasUnlabelledLeaf := false }
  else { parses := true, labelledLeaves := {"1"}, hasUnlabelledLeaf := false }

/-- Witness for C5: two concrete trees with disjoint extra taxon `"5"`
produce the `"X"` sentinel and the mismatch error naming `{5}`. -/
theorem rspr_pairwise_taxon_mismatch_witness :
    matGet (rspr_pairwise (pairCell cexRspr mmInfo) 3).1 "-" 0 1 = "X"
    ∧ matGet (rspr_pairwise (pairCell cexRspr mmInfo) 3).2 ClusterCell.placeholder 0 1
        = ClusterCell.errTaxa
            (((mmInfo 0).labelledLeaves \ (mmInfo 1).labelledLeaves)
              ∪ ((mmInfo 1).labelledLeaves \ (mmInfo 0).labelledLeaves)) := by
  have h := rspr_pairwise_taxon_mismatch cexRspr mmInfo 3 0 1
    (by decide) (by decide) (by decide) (by decide) (by decide)
    (by decide) (by decide) (by decide)
  exact ⟨h.1, h.2.1⟩

/-- Python `str.split(";")` on the character list: splitting on every
semicolon, keeping empty segments, with one (possibly empty) trailing
segment. -/
def splitChars : List Char → List (List Char)
  | [] => [[]]
  | c :: cs =>
      let rest := splitChars cs
      if c = ';' then [] :: rest
      else (c :: rest.headI) :: rest.tail

/-- Python `input_trees.split(";")`. -/
def pySplitSemicolons (s : String) : List String :=
  (splitChars s.data).map (fun cs => String.mk cs)

/-- Python `trees_string.translate(str.maketrans('', '', ' \n\t\r'))`:
delete every space, newline, tab and carriage return. -/
def stripWs (s : String) : String :=
  String.mk (s.data.filter (fun c =>
    !(c == ' ' || c == '\n' || c == '\t' || c == '\r')))

/-- Lines 75-79 of `rspr_graph.py`: strip whitespace, split on semicolons,
and pop the final segment when it is empty. -/
def trees_array_of (trees_string : String) : List String :=
  let arr := pySplitSemicolons (stripWs trees_string)
  if arr.getLast? = some "" then arr.dropLast else arr

/-- Python dict assignment `d[k] = v`: overwrite in place when the key
exists (keeping insertion order), else append a new entry. -/
def dictInsert (d : List (String × String)) (k v : String) :
    List (String × String) :=
  if k ∈ d.map (fun p => p.1) then
    d.map (fun p => if p.1 = k then (k, v) else p)
  else d ++ [(k, v)]

/-- The enumerated loop of `RsprGraph.check_validity` (`rspr_graph.py`
lines 86-94): for the `i`-th segment (1-based), try to parse
`tree + ";"`; in both outcomes assign `tree_label_dict[tree + ";"] = t{i}`,
and append to `valid_trees` only when parsing succeeded. -/
def check_validity_go (parse : String → Bool) :
    List String → Nat → List (String × String) → List String →
    List (String × String) × List String
  | [], _, d, valid => (d, valid)
  | tree :: rest, i, d, valid =>
      if parse (tree ++ ";") then
        check_validity_go parse rest (i + 1)
          (dictInsert d (tree ++ ";") ("t" ++ toString i)) (valid ++ [tree ++ ";"])
      else
        check_validity_go parse rest (i + 1)
          (dictInsert d (tree ++ ";") ("t" ++ toString i)) valid

/-- `RsprGraph.check_validity` (`rspr_graph.py` lines 65-97), returning the
final `(tree_label_dict, valid_trees)` pair.  Parsing by the external
`PhylogeneticNetwork` constructor is the `parse` parameter (`true` = no
`MalformedNewickException`). -/
def check_validity (parse : String → Bool) (trees_string : String) :
    List (String × String) × List String :=
  check_validity_go parse (trees_array_of trees_string) 1 [] []

/-- The label entries the loop would produce for distinct segments starting
at index `i`: segment `s` at 1-based position `k` maps to `t{k}`. -/
def labelEntries (segs : List String) (i : Nat) : List (String × String) :=
  match segs with
  | [] => []
  | s :: rest => (s ++ ";", "t" ++ toString i) :: labelEntries rest (i + 1)

theorem check_validity_go_valid (parse : String → Bool) :
    ∀ (segs : List String) (i : Nat) (d : List (String × String))
      (valid : List String),
      (check_validity_go parse segs i d valid).2
        = valid ++ (segs.filter (fun s => parse (s ++ ";"))).map (fun s => s ++ ";") := by
  intro segs
  induction segs with
  | nil => intro i d valid; simp [check_validity_go]
  | cons s rest ih =>
      intro i d valid
      by_cases hp : parse (s ++ ";")
      · simp only [check_validity_go]
        rw [if_pos hp, ih]
        simp [hp, List.append_assoc]
      · simp only [check_validity_go]
        rw [if_neg hp, ih]
        simp [hp]

theorem check_validity_go_dict (parse : String → Bool) :
    ∀ (segs : List String) (i : Nat) (d : List (String × String))
      (valid : List String),
      (segs.map (fun s => s ++ ";")).Nodup →
      (∀ s ∈ segs, (s ++ ";") ∉ d.map (fun p => p.1)) →
      (check_validity_go parse segs i d valid).1 = d ++ labelEntries segs i := by
  intro segs
  induction segs with
  | nil => intro i d valid _ _; simp [check_validity_go, labelEntries]
  | cons s rest ih =>
      intro i d valid hnodup hdisj
      have hkey : (s ++ ";") ∉ d.map (fun p => p.1) :=
        hdisj s (List.mem_cons_self _ _)
      have hins : dictInsert d (s ++ ";") ("t" ++ toString i)
          = d ++ [(s ++ ";", "t" ++ toString i)] := by
        unfold dictInsert
        rw [if_neg hkey]
      have hnodup2 : ((s ++ ";") :: rest.map (fun x => x ++ ";")).Nodup := by
        rw [List.map_cons] at hnodup
        exact hnodup
      have hhead : (s ++ ";") ∉ rest.map (fun x => x ++ ";") :=
        (List.nodup_cons.mp hnodup2).1
      have hdisj' : ∀ x ∈ rest,
          (x ++ ";") ∉ (d ++ [(s ++ ";", "t" ++ toString i)]).map (fun p => p.1) := by
        intro x hx
        rw [List.map_append, List.mem_append]
        rintro (h | h)
        · exact hdisj x (List.mem_cons_of_mem _ hx) h
        · simp only [List.map_cons, List.map_nil, List.mem_singleton] at h
          exact hhead (h ▸ List.mem_map_of_mem (fun x => x ++ ";") hx)
      have hnodup' : (rest.map (fun x => x ++ ";")).Nodup :=
        (List.nodup_cons.mp hnodup2).2
      by_cases hp : parse (s ++ ";")
      · simp only [check_validity_go]
        rw [if_pos hp, hins, ih (i + 1) _ _ hnodup' hdisj']
        simp [labelEntries, List.append_assoc]
      · simp only [check_validity_go]
        rw [if_neg hp, hins, ih (i + 1) _ _ hnodup' hdisj']
        simp [labelEntries, List.append_assoc]

/-- C9 amended: `check_validity` strips all whitespace, splits on
semicolons and drops one trailing empty segment; `valid_trees` keeps
exactly the parseable segments in order (duplicates included) and invalid
segments never enter it (hence are excluded from graph computation, which
reads only `valid_trees`); and when the segments are pairwise distinct the
label dictionary maps the `k`-th segment to `t{k}` — but since the
dictionary is keyed by the tree string, a repeated segment keeps only the
LAST occurrence's label, so the claim's per-original-position labelling
holds only for distinct segments. -/
theorem check_validity_labels (parse : String → Bool) (trees_string : String) :
    ((check_validity parse trees_string).2
        = ((trees_array_of trees_string).filter
            (fun s => parse (s ++ ";"))).map (fun s => s ++ ";"))
    ∧ (((trees_array_of trees_string).map (fun s => s ++ ";")).Nodup →
        (check_validity parse trees_string).1
          = labelEntries (trees_array_of trees_string) 1)
    ∧ (∀ s ∈ trees_array_of trees_string, parse (s ++ ";") = false →
        (s ++ ";") ∉ (check_validity parse trees_string).2) := by
  refine ⟨?_, ?_, ?_⟩
  · unfold check_validity
    rw [check_validity_go_valid]
    simp
  · intro hnodup
    unfold check_validity
    rw [check_validity_go_dict parse _ 1 [] [] hnodup (by simp)]
    simp
  · intro s hs hp hmem
    unfold check_validity at hmem
    rw [check_validity_go_valid] at hmem
    simp only [List.nil_append, List.mem_map, List.mem_filter] at hmem
    rcases hmem with ⟨x, ⟨_, hx⟩, hxs⟩
    rw [hxs] at hx
    rw [hp] at hx
    cases hx

/-- C9 counterexample: on the input `"(1,2);(1,2);"` (the same valid tree
twice) the final label dictionary binds the tree string to `t2` only — the
first segment's label `t1` has been overwritten, so not every segment keeps
the label of its original 1-based position. -/
theorem check_validity_duplicate_cex :
    (check_validity (fun _ => true) "(1,2);(1,2);").1 = [("(1,2);", "t2")]
    ∧ ("(1,2);", "t1") ∉ (check_validity (fun _ => true) "(1,2);(1,2);").1 := by
  constructor
  · rfl
  · decide

/-- A networkx `Graph` as `RsprGraph` uses it: the node list (iteration
order, `number_of_nodes` is its length) and the neighbor lists. -/
structure FinGraph where
  nodes : List Nat
  neighbors : Nat → List Nat

/-- Fuelled translation of the recursive static method
`RsprGraph.hamiltonian_cycle` (`rspr_graph.py` lines 231-275): append the
current vertex to the path; if the path has `num_nodes` vertices and the
root is adjacent to the current vertex, return the path closed by the root;
otherwise recurse into the first unvisited neighbour that yields a cycle,
and return `none` on exhaustion.  The fuel only bounds the recursion depth,
which Python bounds by the finite vertex set (every call extends a
duplicate-free path); the fuel chosen by `hamiltonian_cycle` below is never
exhausted on the graphs considered. -/
def hamiltonian_cycle_fuel (g : FinGraph) :
    Nat → Nat → List Nat → Nat → Nat → Option (List Nat)
  | 0, _, _, _, _ => none
  | fuel + 1, current_vertex, path, root, num_nodes =>
      if (path ++ [current_vertex]).length = num_nodes
          ∧ root ∈ g.neighbors current_vertex then
        some (path ++ [current_vertex] ++ [root])
      else
        (g.neighbors current_vertex).findSome? (fun neighbour =>
          if neighbour ∈ path ++ [current_vertex] then none
          else hamiltonian_cycle_fuel g fuel neighbour
            (path ++ [current_vertex]) root num_nodes)

/-- `RsprGraph.hamiltonian_cycle` as invoked by `RsprGraph.text`
(`rspr_graph.py` line 124), with fuel ample for any duplicate-free
traversal of the graph. -/
def hamiltonian_cycle (g : FinGraph) (current_vertex : Nat) (path : List Nat)
    (root : Nat) (num_nodes : Nat) : Option (List Nat) :=
  hamiltonian_cycle_fuel g (g.nodes.length + 1) current_vertex path root num_nodes

theorem hamiltonian_cycle_fuel_sound (g : FinGraph)
    (hclosed : ∀ v ∈ g.nodes, ∀ w ∈ g.neighbors v, w ∈ g.nodes) :
    ∀ (fuel current : Nat) (path : List Nat) (root num_nodes : Nat)
      (res : List Nat),
      hamiltonian_cycle_fuel g fuel current path root num_nodes = some res →
      (path ++ [current]).Nodup →
      List.Chain' (fun u w => w ∈ g.neighbors u) (path ++ [current]) →
      (∀ x ∈ path ++ [current], x ∈ g.nodes) →
      ∃ q : List Nat,
        res = q ++ [root]
        ∧ q.Nodup
        ∧ q.length = num_nodes
        ∧ (path ++ [current]) <+: q
        ∧ (∀ x ∈ q, x ∈ g.nodes)
        ∧ List.Chain' (fun u w => w ∈ g.neighbors u) (q ++ [root]) := by
  intro fuel
  induction fuel with
  | zero =>
      intro current path root num_nodes res h
      exact absurd h (by simp [hamiltonian_cycle_fuel])
  | succ fuel ih =>
      intro current path root num_nodes res h hnodup hchain hsub
      rw [hamiltonian_cycle_fuel] at h
      by_cases hcond : (path ++ [current]).length = num_nodes
          ∧ root ∈ g.neighbors current
      · rw [if_pos hcond] at h
        refine ⟨path ++ [current], (Option.some.inj h).symm, hnodup, hcond.1,
          List.prefix_refl _, hsub, ?_⟩
        refine List.chain'_append.mpr ⟨hchain, List.chain'_singleton _, ?_⟩
        intro x hx y hy
        simp at hx hy
        rw [← hx, ← hy]
        exact hcond.2
      · rw [if_neg hcond] at h
        rcases List.exists_of_findSome?_eq_some h with ⟨nb, hnbmem, hf⟩
        by_cases hmem : nb ∈ path ++ [current]
        · rw [if_pos hmem] at hf
          cases hf
        · rw [if_neg hmem] at hf
          have hnodup' : ((path ++ [current]) ++ [nb]).Nodup :=
            List.nodup_append.mpr ⟨hnodup, List.nodup_singleton _,
              List.disjoint_singleton.mpr hmem⟩
          have hchain' : List.Chain' (fun u w => w ∈ g.neighbors u)
              ((path ++ [current]) ++ [nb]) := by
            refine List.chain'_append.mpr ⟨hchain, List.chain'_singleton _, ?_⟩
            intro x hx y hy
            simp at hx hy
            rw [← hx, ← hy]
            exact hnbmem
          have hsub' : ∀ x ∈ (path ++ [current]) ++ [nb], x ∈ g.nodes := by
            intro x hx
            rcases List.mem_append.mp hx with hx | hx
            · exact hsub x hx
            · simp at hx
              rw [hx]
              exact hclosed current (hsub current (by simp)) nb hnbmem
          rcases ih nb (path ++ [current]) root num_nodes res hf hnodup' hchain' hsub'
            with ⟨q, hres, hq, hlen, hpre, hsubq, hchainq⟩
          exact ⟨q, hres, hq, hlen,
            (List.prefix_append (path ++ [current]) [nb]).trans hpre, hsubq, hchainq⟩

/-- A complete graph: duplicate-free node list, and every node's neighbour
list holds exactly the other nodes. -/
def IsCompleteGraph (g : FinGraph) : Prop :=
  g.nodes.Nodup ∧ ∀ v ∈ g.nodes, ∀ w, w ∈ g.neighbors v ↔ (w ∈ g.nodes ∧ w ≠ v)

theorem hamiltonian_cycle_fuel_complete (g : FinGraph) (hg : IsCompleteGraph g)
    (hn3 : 3 ≤ g.nodes.length) :
    ∀ (fuel current : Nat) (path : List Nat) (root : Nat),
      g.nodes.length ≤ fuel + path.length →
      (path ++ [current]).Nodup →
      (∀ x ∈ path ++ [current], x ∈ g.nodes) →
      (path ++ [current]).head? = some root →
      (hamiltonian_cycle_fuel g fuel current path root g.nodes.length).isSome := by
  intro fuel
  induction fuel with
  | zero =>
      intro current path root hfuel hnodup hsub hhead
      exfalso
      have hle : (path ++ [current]).length ≤ g.nodes.length :=
        (List.subperm_of_subset hnodup hsub).length_le
      simp only [List.length_append, List.length_cons, List.length_nil] at hle
      omega
  | succ fuel ih =>
      intro current path root hfuel hnodup hsub hhead
      rw [hamiltonian_cycle_fuel]
      by_cases hcond : (path ++ [current]).length = g.nodes.length
          ∧ root ∈ g.neighbors current
      · rw [if_pos hcond]
        simp
      · rw [if_neg hcond]
        rcases Nat.lt_or_ge (path ++ [current]).length g.nodes.length with hlt | hge
        · have hex : ∃ w, w ∈ g.nodes ∧ w ∉ path ++ [current] := by
            by_contra hX
            push_neg at hX
            have hsub2 : g.nodes ⊆ path ++ [current] := fun x hx => hX x hx
            have := (List.subperm_of_subset hg.1 hsub2).length_le
            omega
          rcases hex with ⟨w, hw, hwnot⟩
          have hcur : current ∈ g.nodes := hsub current (by simp)
          have hwadj : w ∈ g.neighbors current :=
            (hg.2 current hcur w).mpr ⟨hw, fun hwe => hwnot (by rw [hwe]; simp)⟩
          cases hfs : ((g.neighbors current).findSome? (fun neighbour =>
              if neighbour ∈ path ++ [current] then none
              else hamiltonian_cycle_fuel g fuel neighbour
                (path ++ [current]) root g.nodes.length)) with
          | some r => simp
          | none =>
              exfalso
              have hfw := List.findSome?_eq_none_iff.mp hfs w hwadj
              rw [if_neg hwnot] at hfw
              have hrec := ih w (path ++ [current]) root
                (by simp only [List.length_append, List.length_cons, List.length_nil]
                    omega)
                (List.nodup_append.mpr ⟨hnodup, List.nodup_singleton _,
                  List.disjoint_singleton.mpr hwnot⟩)
                (by intro x hx
                    rcases List.mem_append.mp hx with hx | hx
                    · exact hsub x hx
                    · simp at hx
                      rw [hx]
                      exact hw)
                (by rw [List.head?_append_of_ne_nil _ (by simp)]
                    exact hhead)
              rw [hfw] at hrec
              simp at hrec
        · exfalso
          have hle : (path ++ [current]).length ≤ g.nodes.length :=
            (List.subperm_of_subset hnodup hsub).length_le
          have heq : (path ++ [current]).length = g.nodes.length :=
            le_antisymm hle hge
          apply hcond
          refine ⟨heq, ?_⟩
          have hcur : current ∈ g.nodes := hsub current (by simp)
          cases hp : path with
          | nil =>
              rw [hp] at heq
              simp at heq
              omega
          | cons p0 ps =>
              have hroot : root = p0 := by
                rw [hp] at hhead
                simp at hhead
                exact hhead.symm
              have hrootmem : root ∈ path := by
                rw [hp, hroot]
                exact List.mem_cons_self _ _
              have hrootnodes : root ∈ g.nodes :=
                hsub root (List.mem_append_left _ hrootmem)
              have hcurnot : current ∉ path := by
                rw [List.nodup_append] at hnodup
                exact fun hc => hnodup.2.2 hc (by simp)
              have hne : root ≠ current := fun hrc => hcurnot (hrc ▸ hrootmem)
              exact (hg.2 current hcur root).mpr ⟨hrootnodes, hne⟩

/-- Adjacency along a list of vertices forming a simple path: two vertices
are adjacent exactly when they are consecutive entries, in either
direction. -/
def pathAdj : List Nat → Nat → Nat → Prop
  | [], _, _ => False
  | [_], _, _ => False
  | a :: b :: rest, v, w =>
      (v = a ∧ w = b) ∨ (v = b ∧ w = a) ∨ pathAdj (b :: rest) v w

/-- A graph whose edges form precisely the simple path `vs` (no edge
closing the cycle). -/
def IsPathGraph (g : FinGraph) (vs : List Nat) : Prop :=
  g.nodes = vs ∧ vs.Nodup ∧ ∀ v w, w ∈ g.neighbors v ↔ pathAdj vs v w

theorem pathAdj_symm : ∀ (vs : List Nat) {v w : Nat},
    pathAdj vs v w → pathAdj vs w v
  | [], _, _, h => h.elim
  | [_], _, _, h => h.elim
  | a :: b :: rest, v, w, h => by
      rcases h with ⟨hv, hw⟩ | ⟨hv, hw⟩ | h
      · exact Or.inr (Or.inl ⟨hw, hv⟩)
      · exact Or.inl ⟨hw, hv⟩
      · exact Or.inr (Or.inr (pathAdj_symm (b :: rest) h))

theorem pathAdj_mem : ∀ (vs : List Nat) {v w : Nat},
    pathAdj vs v w → v ∈ vs ∧ w ∈ vs
  | [], _, _, h => h.elim
  | [_], _, _, h => h.elim
  | a :: b :: rest, v, w, h => by
      rcases h with ⟨hv, hw⟩ | ⟨hv, hw⟩ | h
      · rw [hv, hw]
        exact ⟨by simp, by simp⟩
      · rw [hv, hw]
        exact ⟨by simp, by simp⟩
      · have := pathAdj_mem (b :: rest) h
        exact ⟨List.mem_cons_of_mem _ this.1, List.mem_cons_of_mem _ this.2⟩

/-- The first endpoint of a simple path is adjacent only to the second
vertex. -/
theorem pathAdj_head_eq (a b : Nat) (rest : List Nat)
    (hnodup : (a :: b :: rest).Nodup) {w : Nat}
    (h : pathAdj (a :: b :: rest) a w) : w = b := by
  rcases h with ⟨_, hw⟩ | ⟨ha, hw⟩ | h
  · exact hw
  · exact absurd (ha ▸ List.mem_cons_self b rest)
      (List.nodup_cons.mp hnodup).1
  · exact absurd (pathAdj_mem _ h).1 (List.nodup_cons.mp hnodup).1

theorem chain_get_pathAdj (vs Q : List Nat)
    (hCq : ∀ (i : Nat) (hi : i < Q.length - 1),
      pathAdj vs (Q.get ⟨i, by omega⟩) (Q.get ⟨i + 1, by omega⟩))
    (i j : Nat) (hi : i < Q.length) (hj : j < Q.length) (hij : j = i + 1)
    (hb : i < Q.length - 1) :
    pathAdj vs (Q.get ⟨i, hi⟩) (Q.get ⟨j, hj⟩) := by
  subst hij
  exact hCq i hb

/-- On a graph whose edges form a simple path on at least 3 vertices, the
backtracking search finds no Hamiltonian cycle. -/
theorem pathGraph_no_cycle (g : FinGraph) (vs : List Nat)
    (hpg : IsPathGraph g vs) (hn3 : 3 ≤ vs.length)
    (v : Nat) (hv : v ∈ g.nodes) :
    hamiltonian_cycle g v [] v g.nodes.length = none := by
  cases hres : hamiltonian_cycle g v [] v g.nodes.length with
  | none => rfl
  | some res =>
      exfalso
      obtain ⟨hnodes, hnd, hadj⟩ := hpg
      have hclosed : ∀ u ∈ g.nodes, ∀ w ∈ g.neighbors u, w ∈ g.nodes := by
        intro u _ w hw
        rw [hnodes]
        exact (pathAdj_mem vs ((hadj u w).mp hw)).2
      rcases hamiltonian_cycle_fuel_sound g hclosed
          (g.nodes.length + 1) v [] v g.nodes.length res hres
          (by simp) (by simp)
          (by intro x hx
              simp at hx
              rw [hx]
              exact hv)
        with ⟨q, _, hqnd, hqlen, hqpre, hqsub, hqchain⟩
      have hchain2 : List.Chain' (fun u w => pathAdj vs u w) (q ++ [v]) :=
        List.Chain'.imp (fun a b hab => (hadj a b).mp hab) hqchain
      rcases hqpre with ⟨t, ht⟩
      simp only [List.nil_append, List.singleton_append] at ht
      subst ht
      obtain ⟨v0, v1, vrest, hvs⟩ : ∃ v0 v1 vrest, vs = v0 :: v1 :: vrest := by
        cases vs with
        | nil => simp at hn3
        | cons a tl =>
            cases tl with
            | nil => simp at hn3
            | cons b tl2 => exact ⟨a, b, tl2, rfl⟩
      have hQlen : (v :: t).length = vs.length := by
        rw [hqlen, hnodes]
      have htlen : 3 ≤ (v :: t).length := by
        rw [hQlen]
        exact hn3
      have hperm : (v :: t).Perm vs := by
        apply List.Subperm.perm_of_length_le
          (List.subperm_of_subset hqnd (fun x hx => hnodes ▸ hqsub x hx))
        rw [hQlen]
      have huniq : ∀ w, pathAdj vs v0 w → w = v1 := by
        intro w hw
        rw [hvs] at hw
        exact pathAdj_head_eq v0 v1 vrest (by rw [← hvs]; exact hnd) hw
      have huniq2 : ∀ w, pathAdj vs w v0 → w = v1 :=
        fun w hw => huniq w (pathAdj_symm vs hw)
      have hinj : ∀ (i j : Nat) (hi : i < (v :: t).length)
          (hj : j < (v :: t).length),
          (v :: t).get ⟨i, hi⟩ = (v :: t).get ⟨j, hj⟩ → i = j := by
        intro i j hi hj he
        have := (List.Nodup.get_inj_iff hqnd).mp he
        simpa using this
      obtain ⟨hCq', _, hlastadj⟩ := List.chain'_append.mp hchain2
      have hCq := List.chain'_iff_get.mp hCq'
      have hlastv : pathAdj vs ((v :: t).get ⟨(v :: t).length - 1, by simp⟩) v := by
        apply hlastadj
        · rw [List.getLast?_eq_getLast _ (by simp), List.getLast_eq_get]
          simp
        · simp
      have hv0q : v0 ∈ v :: t :=
        hperm.mem_iff.mpr (by rw [hvs]; exact List.mem_cons_self _ _)
      rcases List.mem_iff_get.mp hv0q with ⟨⟨k, hk⟩, hgetk⟩
      by_cases hk0 : k = 0
      · subst hk0
        have hvv0 : v = v0 := hgetk
        have h1 : (v :: t).get ⟨1, by omega⟩ = v1 := by
          apply huniq
          have := chain_get_pathAdj vs (v :: t) hCq 0 1 (by simp) (by omega)
            rfl (by omega)
          rw [show ((v :: t).get ⟨0, by simp⟩) = v0 from hgetk] at this
          exact this
        have h2 : (v :: t).get ⟨(v :: t).length - 1, by simp⟩ = v1 := by
          apply huniq2
          rw [← hvv0]
          exact hlastv
        have := hinj 1 ((v :: t).length - 1) (by omega) (by simp) (h1.trans h2.symm)
        omega
      · by_cases hklast : k = (v :: t).length - 1
        · have hbefore : (v :: t).get ⟨k - 1, by omega⟩ = v1 := by
            apply huniq2
            have := chain_get_pathAdj vs (v :: t) hCq (k - 1) k (by omega) hk
              (by omega) (by omega)
            rw [hgetk] at this
            exact this
          have hvv1 : v = v1 := by
            apply huniq
            have hgetk2 : (v :: t).get ⟨(v :: t).length - 1, by simp⟩ = v0 := by
              rw [← hgetk]
              congr 1
              exact (Fin.ext hklast.symm)
            rw [hgetk2] at hlastv
            exact hlastv
          have hq0 : (v :: t).get ⟨0, by simp⟩ = v1 := hvv1
          have := hinj 0 (k - 1) (by simp) (by omega) (hq0.trans hbefore.symm)
          omega
        · have hbefore : (v :: t).get ⟨k - 1, by omega⟩ = v1 := by
            apply huniq2
            have := chain_get_pathAdj vs (v :: t) hCq (k - 1) k (by omega) hk
              (by omega) (by omega)
            rw [hgetk] at this
            exact this
          have hafter : (v :: t).get ⟨k + 1, by omega⟩ = v1 := by
            apply huniq
            have := chain_get_pathAdj vs (v :: t) hCq k (k + 1) hk (by omega)
              rfl (by omega)
            rw [hgetk] at this
            exact this
          have := hinj (k - 1) (k + 1) (by omega) (by omega)
            (hbefore.trans hafter.symm)
          omega

/-- C4 amended: on every complete graph with at least 3 nodes,
`hamiltonian_cycle` started from any vertex of the graph with an empty path
returns a sequence that starts and ends at the start vertex, visits every
node exactly once (the part before the closing vertex is a permutation of
the node list), and steps only along graph edges; on every graph whose
edges form a simple path on AT LEAST 3 nodes it returns `None`.  (On the
2-node simple path the code returns a cycle, so the unrestricted path half
of the claim is false; see the counterexample.) -/
theorem hamiltonian_cycle_complete_and_path (g : FinGraph) :
    (IsCompleteGraph g → 3 ≤ g.nodes.length → ∀ v ∈ g.nodes,
      ∃ q : List Nat,
        hamiltonian_cycle g v [] v g.nodes.length = some (q ++ [v])
        ∧ q.Perm g.nodes
        ∧ q.head? = some v
        ∧ List.Chain' (fun u w => w ∈ g.neighbors u) (q ++ [v]))
    ∧ (∀ vs, IsPathGraph g vs → 3 ≤ vs.length → ∀ v ∈ g.nodes,
        hamiltonian_cycle g v [] v g.nodes.length = none) := by
  constructor
  · intro hg hn3 v hv
    have hclosed : ∀ u ∈ g.nodes, ∀ w ∈ g.neighbors u, w ∈ g.nodes :=
      fun u hu w hw => ((hg.2 u hu w).mp hw).1
    have hsome := hamiltonian_cycle_fuel_complete g hg hn3 (g.nodes.length + 1)
      v [] v (by simp)
      (by simp)
      (by intro x hx
          simp at hx
          rw [hx]
          exact hv)
      (by simp)
    cases hres : hamiltonian_cycle_fuel g (g.nodes.length + 1) v [] v
        g.nodes.length with
    | none => rw [hres] at hsome; simp at hsome
    | some res =>
        rcases hamiltonian_cycle_fuel_sound g hclosed (g.nodes.length + 1)
            v [] v g.nodes.length res hres (by simp) (by simp)
            (by intro x hx
                simp at hx
                rw [hx]
                exact hv)
          with ⟨q, hq, hqnd, hqlen, hqpre, hqsub, hqchain⟩
        refine ⟨q, ?_, ?_, ?_, ?_⟩
        · rw [hamiltonian_cycle, hres, hq]
        · exact List.Subperm.perm_of_length_le
            (List.subperm_of_subset hqnd (fun x hx => hqsub x hx))
            (le_of_eq hqlen.symm)
        · rcases hqpre with ⟨t, ht⟩
          simp only [List.nil_append, List.singleton_append] at ht
          rw [← ht]
          rfl
        · exact hqchain
  · intro vs hpg hn3 v hv
    exact pathGraph_no_cycle g vs hpg hn3 v hv

/-- The 2-node graph with the single edge 0-1. -/
def pairGraph : FinGraph :=
  { nodes := [0, 1]
    neighbors := fun v => if v = 0 then [1] else if v = 1 then [0] else [] }

/-- C4 counterexample: the 2-node simple-path graph.  Its edges form a
simple path (no closing edge), yet the search started at node 0 returns
the walk (0, 1, 0) — reusing the unique edge to close — rather than
`None` as the claim requires for every simple-path graph. -/
theorem hamiltonian_cycle_path_cex :
    IsPathGraph pairGraph [0, 1]
    ∧ hamiltonian_cycle pairGraph 0 [] 0 pairGraph.nodes.length = some [0, 1, 0] := by
  constructor
  · refine ⟨rfl, by decide, ?_⟩
    intro v w
    by_cases h0 : v = 0
    · subst h0
      simp [pairGraph, pathAdj]
    · by_cases h1 : v = 1
      · subst h1
        simp [pairGraph, pathAdj]
      · simp [pairGraph, pathAdj, h0, h1]
  · rfl

/-- The complete graph on nodes 0, 1, 2. -/
def triGraph : FinGraph :=
  { nodes := [0, 1, 2]
    neighbors := fun v =>
      if v = 0 then [1, 2]
      else if v = 1 then [0, 2]
      else if v = 2 then [0, 1]
      else [] }

/-- The simple-path graph 0 - 1 - 2. -/
def p3Graph : FinGraph :=
  { nodes := [0, 1, 2]
    neighbors := fun v =>
      if v = 0 then [1]
      else if v = 1 then [0, 2]
      else if v = 2 then [1]
      else [] }

/-- Witness for C4's amended theorem: the complete graph on 3 nodes yields
a Hamiltonian cycle from node 0, and the 3-node simple path yields
`None`. -/
theorem hamiltonian_cycle_complete_and_path_witness :
    (∃ q : List Nat,
      hamiltonian_cycle triGraph 0 [] 0 triGraph.nodes.length = some (q ++ [0])
      ∧ q.Perm triGraph.nodes
      ∧ q.head? = some 0
      ∧ List.Chain' (fun u w => w ∈ triGraph.neighbors u) (q ++ [0]))
    ∧ hamiltonian_cycle p3Graph 0 [] 0 p3Graph.nodes.length = none := by
  have hcomp : IsCompleteGraph triGraph := by
    refine ⟨by decide, ?_⟩
    intro u hu w
    simp only [triGraph, List.mem_cons, List.not_mem_nil, or_false] at hu
    rcases hu with h | h | h
    all_goals subst h
    all_goals simp [triGraph]
    all_goals omega
  have hpath : IsPathGraph p3Graph [0, 1, 2] := by
    refine ⟨rfl, by decide, ?_⟩
    intro v w
    by_cases h0 : v = 0
    · subst h0
      simp [p3Graph, pathAdj]
    · by_cases h1 : v = 1
      · subst h1
        simp [p3Graph, pathAdj]
      · by_cases h2 : v = 2
        · subst h2
          simp [p3Graph, pathAdj, h0, h1]
        · simp [p3Graph, pathAdj, h0, h1, h2]
  constructor
  · exact (hamiltonian_cycle_complete_and_path triGraph).1 hcomp (by decide)
      0 (by decide)
  · exact (hamiltonian_cycle_complete_and_path p3Graph).2 [0, 1, 2] hpath
      (by decide) 0 (by decide)

/-- C10: on a graph consisting of exactly two nodes joined by a single
edge, `RsprGraph.hamiltonian_cycle` started at either node (empty path,
`num_nodes = 2`) returns the three-element sequence
(start, other, start) — it reports a Hamiltonian cycle rather than
returning `None`. -/
theorem hamiltonian_cycle_two_node_edge (a b : Nat) (hab : a ≠ b)
    (g : FinGraph) (hnodes : g.nodes = [a, b])
    (hna : g.neighbors a = [b]) (hnb : g.neighbors b = [a]) :
    hamiltonian_cycle g a [] a g.nodes.length = some [a, b, a]
    ∧ hamiltonian_cycle g b [] b g.nodes.length = some [b, a, b] := by
  have hlen : g.nodes.length = 2 := by rw [hnodes]; rfl
  have hba : b ≠ a := Ne.symm hab
  constructor
  · rw [hamiltonian_cycle, hlen]
    simp [hamiltonian_cycle_fuel, hna, hnb, hab, hba, List.findSome?]
  · rw [hamiltonian_cycle, hlen]
    simp [hamiltonian_cycle_fuel, hna, hnb, hab, hba, List.findSome?]

/-- Witness for C10 at the concrete 2-node single-edge graph. -/
theorem hamiltonian_cycle_two_node_edge_witness :
    hamiltonian_cycle pairGraph 0 [] 0 pairGraph.nodes.length = some [0, 1, 0]
    ∧ hamiltonian_cycle pairGraph 1 [] 1 pairGraph.nodes.length = some [1, 0, 1] :=
  hamiltonian_cycle_two_node_edge 0 1 (by decide) pairGraph rfl rfl rfl

/-- Witness for C9's amended theorem at a concrete two-segment input with
distinct segments, one valid and one invalid. -/
theorem check_validity_labels_witness :
    (check_validity (fun s => s == "(1,2);") "(1,2);(3,4)x;").1
      = [("(1,2);", "t1"), ("(3,4)x;", "t2")]
    ∧ (check_validity (fun s => s == "(1,2);") "(1,2);(3,4)x;").2 = ["(1,2);"] := by
  constructor
  · have h := (check_validity_labels (fun s => s == "(1,2);") "(1,2);(3,4)x;").2.1
      (by decide)
    rw [h]
    rfl
  · have h := (check_validity_labels (fun s => s == "(1,2);") "(1,2);(3,4)x;").1
    rw [h]
    rfl
